import Mathlib

/-!
Shallow embedding of the Neologismen experiment core
(`src/config.py`, `src/input_handler.py`, `src/experiment_core.py`).

Python strings are modelled as Lean `String` (a packed `List Char`),
Python `str.lower` as mapping `Char.toLower` over the characters
(Python's lowering agrees with this on the basic-latin letters the
experiment uses), and clock readings (Python floats) as `Int`: every
claim about timestamps is pure subtraction, so the carrier only has to
be an ordered ring.

The PsychoPy render/poll loop is modelled frame by frame: a `Frame`
records what the event queue holds during one iteration of a `while`
loop (whether `event.getKeys(['escape'])` is non-empty, whether the
countdown timer has expired at the check, whether space is pressed, and
the time-stamped key list returned by `event.getKeys(timeStamped=...)`).
A loop that never reaches its `return` inside the supplied frame list is
modelled as `none`.
-/

namespace Neolog

/-- Python `s.lower()` on the character list of a string. -/
def strLower (s : String) : String := ⟨s.data.map Char.toLower⟩

/-- Python `s[:-1]`: drop the last character. -/
def pyDropLast (s : String) : String := ⟨s.data.dropLast⟩

/-- Python `s[i]` for `0 ≤ i < len(s)`; the default is never reached because
every use site guards with `i < s.length`. -/
def pyIndex (s : String) (i : Nat) : Char := s.data.getD i ' '

/-- Model of `ParticipantInfo` from `src/config.py`. -/
structure ParticipantInfo where
  name : String
  age : String
  gender : String
  session_name : String
  word_count : String
  language : String
deriving Repr, DecidableEq

/-- One stimulus record as handed to `run_trial`: a row of
`stimuli/{language}_words.csv` plus the randomly assigned
`def_position` (`'before'` or `'after'`).  The CSV columns `class` and
`newness` are opaque payload here (`class` is a Lean keyword, hence the
field name `wordClass`). -/
structure Trial where
  word : String
  definition : String
  wordClass : String
  newness : String
  def_position : String
deriving Repr, DecidableEq

/-- One row of `keylog_data` as appended by `InputHandler._log_keypress`. -/
structure InputEvent where
  attempt : Nat
  word : String
  definition_position : String
  input : String
  char : String
  correct : Bool
  time : Int
  wordClass : String
  newness : String
  name : String
  language : String
  age : String
deriving Repr, DecidableEq

/-- The `context` dict built in `NeologismenCore.run_single_input` and read
by `InputHandler.process_key`. -/
structure Context where
  typed_text : String
  current_pos : Nat
  last_keypress_time : Int
  target_word : String
  trial : Trial
  attempt : Nat
  participant_info : ParticipantInfo
deriving Repr, DecidableEq

/-- Model of `InputHandler._log_keypress`: the record it appends to
`keylog_data`. -/
def log_keypress (key : String) (is_correct : Bool) (time_since_last : Int)
    (typed_text : String) (ctx : Context) : InputEvent :=
  { attempt := ctx.attempt
    word := ctx.target_word
    definition_position := ctx.trial.def_position
    input := typed_text
    char := key
    correct := is_correct
    time := time_since_last
    wordClass := ctx.trial.wordClass
    newness := ctx.trial.newness
    name := ctx.participant_info.name
    language := ctx.participant_info.language
    age := ctx.participant_info.age }

/-- Model of `InputHandler.process_key`.  Returns the `(typed_text, current_pos,
last_keypress_time)` triple the Python function returns, paired with the
list of records it appended to `keylog_data` (empty or a singleton). -/
def process_key (key : String) (rt : Int) (ctx : Context) :
    (String × Nat × Int) × List InputEvent :=
  let typed_text := ctx.typed_text
  let current_pos := ctx.current_pos
  let time_since_last := rt - ctx.last_keypress_time
  if key = "backspace" ∧ typed_text ≠ "" ∧ 0 < current_pos then
    ((pyDropLast typed_text, current_pos - 1, rt),
     [log_keypress key true time_since_last typed_text ctx])
  else if key.length = 1 then
    let expected_char : String :=
      if current_pos < ctx.target_word.length then
        strLower (String.singleton (pyIndex ctx.target_word current_pos))
      else ""
    let is_correct : Bool := strLower key == strLower expected_char
    ((typed_text ++ key, current_pos + 1, rt),
     [log_keypress key is_correct time_since_last typed_text ctx])
  else
    ((typed_text, current_pos, ctx.last_keypress_time), [])

/-- Case-insensitive match of a key string against the character of `target`
at position `pos`; `false` when `pos` is past the end (the wording of the
spec, §4.1/§8). -/
def ciMatches (key : String) (target : String) (pos : Nat) : Bool :=
  match target.data[pos]? with
  | some c => strLower key == strLower (String.singleton c)
  | none => false

/-- Model of `ExperimentConfig` from `src/config.py`, with its dataclass defaults.
Float-valued durations are modelled as rationals; they only parameterize
display timing, which the frame model abstracts. -/
structure ExperimentConfig where
  window_size : Nat × Nat := (1024, 768)
  max_attempts : Nat := 5
  instruction_sections : List String :=
    ["Welcome", "Task Introduction", "Input Instructions",
     "Definition Info", "Controls", "Exit Info"]
  definition_display_time : ℚ := 3
  blink_interval : ℚ := 1 / 2
deriving Repr, DecidableEq

/-- The default-constructed `ExperimentConfig()`. -/
def defaultConfig : ExperimentConfig := {}

/-- What the event queue and timers present during one iteration of a
render/poll `while` loop: whether `event.getKeys(['escape'])` is non-empty,
whether the countdown timer (when one exists) reads `<= 0` at its check,
whether `event.getKeys(['space'])` is non-empty, and the batch returned by
`event.getKeys(timeStamped=input_clock)`. -/
structure Frame where
  escape : Bool := false
  timerExpired : Bool := false
  space : Bool := false
  keys : List (String × Int) := []
deriving Repr, DecidableEq

/-- Model of `NeologismenCore.show_text`.  `hasDuration` is whether a `duration` was
passed (instructions and thank-you: no; definitions: yes).  Consumes frames
until one of the loop's `return`s fires; `none` if the frame list runs out
first.  The blink bookkeeping and drawing are display-only and carry no
state the claims mention. -/
def show_text (hasDuration : Bool) : List Frame → Option (Bool × List Frame)
  | [] => none
  | f :: fs =>
    if f.escape then some (false, fs)
    else if hasDuration && f.timerExpired then some (true, fs)
    else if !hasDuration && f.space then some (true, fs)
    else show_text hasDuration fs

/-- The `for key, rt in event.getKeys(...)` body of
`NeologismenCore.run_single_input`: walk one frame's key batch, returning
whether `return True` fired (enter / numpad enter), the final
`(typed_text, current_pos, last_keypress_time)` state, and the appended
log records.  Keys after an enter in the same batch are discarded, as the
Python `return` discards them. -/
def process_keys (target : String) (attempt : Nat) (trial : Trial)
    (pinfo : ParticipantInfo) (st : String × Nat × Int) :
    List (String × Int) → Bool × (String × Nat × Int) × List InputEvent
  | [] => (false, st, [])
  | (key, rt) :: rest =>
    if key = "return" ∨ key = "num_enter" then (true, st, [])
    else
      let r := process_key key rt
        { typed_text := st.1
          current_pos := st.2.1
          last_keypress_time := st.2.2
          target_word := target
          trial := trial
          attempt := attempt
          participant_info := pinfo }
      let next := process_keys target attempt trial pinfo r.1 rest
      (next.1, next.2.1, r.2 ++ next.2.2)

/-- Model of `NeologismenCore.run_single_input` from its `while True` loop on, the
state `st` holding `(typed_text, current_pos, last_keypress_time)`
(initially `("", 0, 0)`: empty buffer, cursor 0, and a clock that was just
created).  Per frame: the escape poll first (`return False`), then the
time-stamped key batch; `none` when the frames run out before a `return`. -/
def run_single_input_loop (target : String) (attempt : Nat) (trial : Trial)
    (pinfo : ParticipantInfo) (st : String × Nat × Int) :
    List Frame → Option (Bool × List Frame × List InputEvent)
  | [] => none
  | f :: fs =>
    if f.escape then some (false, fs, [])
    else
      let r := process_keys target attempt trial pinfo st f.keys
      if r.1 then some (true, fs, r.2.2)
      else
        match run_single_input_loop target attempt trial pinfo r.2.1 fs with
        | none => none
        | some (b, fs', evs) => some (b, fs', r.2.2 ++ evs)

/-- Model of `NeologismenCore.run_single_input`: the loop started on the fresh
attempt state. -/
def run_single_input (target : String) (attempt : Nat) (trial : Trial)
    (pinfo : ParticipantInfo) (frames : List Frame) :
    Option (Bool × List Frame × List InputEvent) :=
  run_single_input_loop target attempt trial pinfo ("", 0, 0) frames

/-- Trace entries for the session-level control flow: the participant-facing
displays, the attempts with their outcome, the `save_data` calls (with their
`aborted` flag), and the teardown actions of `NeologismenCore.run`. -/
inductive Act where
  | showInstr
  | showDef
  | attempt (n : Nat) (completed : Bool)
  | save (aborted : Bool)
  | showThankYou
  | logError
  | closeWin
  | quit
deriving Repr, DecidableEq

/-- The `for attempt in range(1, max_attempts + 1)` loop of
`NeologismenCore.run_trial`: run `n` attempts starting at number `k`;
stop with `False` as soon as one attempt reports an abort. -/
def run_attempts (trial : Trial) (pinfo : ParticipantInfo) :
    Nat → Nat → List Frame → Option (Bool × List Frame × List InputEvent × List Act)
  | 0, _, frames => some (true, frames, [], [])
  | n + 1, k, frames =>
    match run_single_input trial.word k trial pinfo frames with
    | none => none
    | some (false, fs, evs) => some (false, fs, evs, [.attempt k false])
    | some (true, fs, evs) =>
      match run_attempts trial pinfo n (k + 1) fs with
      | none => none
      | some (b, fs', evs', acts) => some (b, fs', evs ++ evs', .attempt k true :: acts)

/-- Model of `NeologismenCore.run_trial`.  Note the Python code calls
`self.show_text(...)` for the definition displays and discards the returned
boolean; the model does the same (only the consumed frames matter). -/
def run_trial (cfg : ExperimentConfig) (trial : Trial) (pinfo : ParticipantInfo)
    (frames : List Frame) : Option (Bool × List Frame × List InputEvent × List Act) :=
  let pre : Option (List Act × List Frame) :=
    if trial.def_position = "before" then
      match show_text true frames with
      | none => none
      | some (_, fs) => some ([Act.showDef], fs)
    else some ([], frames)
  match pre with
  | none => none
  | some (preActs, fs) =>
    match run_attempts trial pinfo cfg.max_attempts 1 fs with
    | none => none
    | some (false, fs', evs, acts) => some (false, fs', evs, preActs ++ acts)
    | some (true, fs', evs, acts) =>
      if trial.def_position = "after" then
        match show_text true fs' with
        | none => none
        | some (_, fs'') => some (true, fs'', evs, preActs ++ acts ++ [Act.showDef])
      else some (true, fs', evs, preActs ++ acts)

/-- The instruction loop of `NeologismenCore.run`: show each instruction
block (no duration, space advances); `False` as soon as one aborts. -/
def show_instructions : List String → List Frame → Option (Bool × List Frame × List Act)
  | [], fs => some (true, fs, [])
  | _ :: rest, fs =>
    match show_text false fs with
    | none => none
    | some (false, fs') => some (false, fs', [.showInstr])
    | some (true, fs') =>
      match show_instructions rest fs' with
      | none => none
      | some (b, fs'', acts) => some (b, fs'', .showInstr :: acts)

/-- The trial loop of `NeologismenCore.run`: run each trial; `False` as
soon as one reports an abort. -/
def run_trials (cfg : ExperimentConfig) (pinfo : ParticipantInfo) :
    List Trial → List Frame → Option (Bool × List Frame × List InputEvent × List Act)
  | [], fs => some (true, fs, [], [])
  | t :: rest, fs =>
    match run_trial cfg t pinfo fs with
    | none => none
    | some (false, fs', evs, acts) => some (false, fs', evs, acts)
    | some (true, fs', evs, acts) =>
      match run_trials cfg pinfo rest fs' with
      | none => none
      | some (b, fs'', evs', acts') => some (b, fs'', evs ++ evs', acts ++ acts')

/-- The body of `NeologismenCore.run`'s `try` block: instructions, trials,
then `save_data()` followed by the thank-you screen; each abort path calls
`save_data(aborted=True)` and returns.  Result: the accumulated
`keylog_data` and the action trace. -/
def run_body (cfg : ExperimentConfig) (instructions : List String)
    (trials : List Trial) (pinfo : ParticipantInfo) (frames : List Frame) :
    Option (List InputEvent × List Act) :=
  match show_instructions instructions frames with
  | none => none
  | some (false, _, acts) => some ([], acts ++ [.save true])
  | some (true, fs, acts) =>
    match run_trials cfg pinfo trials fs with
    | none => none
    | some (false, _, evs, acts') => some (evs, acts ++ acts' ++ [.save true])
    | some (true, fs', evs, acts') =>
      match show_text false fs' with
      | none => none
      | some _ => some (evs, acts ++ acts' ++ [.save false, .showThankYou])

/-- How the `try` body of `NeologismenCore.run` ended: normally, or with an
exception raised at some point after emitting a partial trace. -/
inductive BodyOutcome where
  | normal (evs : List InputEvent) (acts : List Act)
  | raised (evs : List InputEvent) (acts : List Act)
deriving Repr, DecidableEq

/-- The `try`/`except`/`finally` skeleton of `NeologismenCore.run`: the
`except Exception` clause logs the error to the operator log and calls
`save_data(aborted=True)`; the `finally` clause closes the window and
quits, on every path. -/
def run : BodyOutcome → List Act
  | .normal _ acts => acts ++ [.closeWin, .quit]
  | .raised _ acts => acts ++ [.logError, .save true, .closeWin, .quit]

/-- The filename built in `NeologismenCore.save_data`. -/
def save_filename (current_date : String) (participant_name : String)
    (aborted : Bool) (timestamp : String) : String :=
  let save_type : String := if aborted then "aborted" else "final"
  current_date ++ "_participant_" ++ participant_name ++ "_" ++ save_type
    ++ "_" ++ timestamp ++ ".csv"

/-- Decimal digit-string value, `none` when empty or not all digits. -/
def digitsToNat (cs : List Char) : Option Nat :=
  if cs = [] then none
  else if cs.all Char.isDigit then
    some (cs.foldl (fun acc c => acc * 10 + (c.toNat - 48)) 0)
  else none

/-- Model of Python `int(s)` for a decimal literal with an optional sign:
`some` the value, `none` when `int` raises `ValueError`.  (Python also
strips surrounding whitespace and allows `_` separators; no claim
exercises those.) -/
def pyInt (s : String) : Option Int :=
  match s.data with
  | '-' :: rest => (digitsToNat rest).map (fun n => -(n : Int))
  | '+' :: rest => (digitsToNat rest).map (fun n => (n : Int))
  | cs => (digitsToNat cs).map (fun n => (n : Int))

/-- Python `l[:n]` for an arbitrary (possibly negative) `n`. -/
def pySliceTo (n : Int) (l : List α) : List α :=
  if 0 ≤ n then l.take n.toNat
  else l.take (l.length - (-n).toNat)

/-- The word-count step of `NeologismenCore._load_stimuli` on the shuffled
word list: `word_list[:int(word_count)]` unless `word_count == 'all'`, with
the `except ValueError` branch keeping the full list and logging a warning.
Returns the resulting list and whether the warning was logged. -/
def truncate_word_list (word_count : String) (word_list : List α) :
    List α × Bool :=
  if word_count ≠ "all" then
    match pyInt word_count with
    | some n => (pySliceTo n word_list, false)
    | none => (word_list, true)
  else (word_list, false)

/-- The attempt entries of a trace, with their outcome. -/
def actAttempts : List Act → List (Nat × Bool) :=
  List.filterMap (fun a => match a with
    | Act.attempt n c => some (n, c)
    | _ => none)

def actIsSave : Act → Bool := fun a =>
  match a with
  | Act.save _ => true
  | _ => false

/-- Sample fixtures for the concrete instantiations below. -/
def exTrial : Trial :=
  { word := "glorp", definition := "a glorp", wordClass := "noun",
    newness := "1", def_position := "before" }

def exTrialAfter : Trial := { exTrial with def_position := "after" }

def exPinfo : ParticipantInfo :=
  { name := "p01", age := "21", gender := "w", session_name := "2025-01-01",
    word_count := "all", language := "de" }

def exCtx : Context :=
  { typed_text := "gl", current_pos := 2, last_keypress_time := 3,
    target_word := "glorp", trial := exTrial, attempt := 1,
    participant_info := exPinfo }

def exCtxPastEnd : Context :=
  { exCtx with typed_text := "glorp", current_pos := 5, last_keypress_time := 9 }

/-- Frames for a complete trial with the definition after the attempts:
five attempts each submitted by enter, then the definition display running
to timer expiry. -/
def exTrialFrames : List Frame :=
  List.replicate 5 { keys := [("return", 0)] } ++ [{ timerExpired := true }]

def exActs : List Act :=
  [Act.attempt 1 true, Act.attempt 2 true, Act.attempt 3 true,
   Act.attempt 4 true, Act.attempt 5 true, Act.showDef]

/-- Frames with escape pressed during the (pre-trial) definition display,
followed by five attempts each submitted by enter. -/
def cExFrames : List Frame :=
  { escape := true } :: List.replicate 5 { keys := [("return", 0)] }

def cExActs : List Act :=
  [Act.showDef, Act.attempt 1 true, Act.attempt 2 true, Act.attempt 3 true,
   Act.attempt 4 true, Act.attempt 5 true]

theorem char_toNat_ofNat {n : Nat} (h : n.isValidChar) :
    (Char.ofNat n).toNat = n := by
  unfold Char.ofNat
  rw [dif_pos h]
  rfl

theorem char_toLower_toLower (c : Char) : c.toLower.toLower = c.toLower := by
  unfold Char.toLower
  by_cases h : c.toNat ≥ 65 ∧ c.toNat ≤ 90
  · rw [if_pos h]
    have hv : (c.toNat + 32).isValidChar := by
      exact Or.inl (by omega)
    rw [char_toNat_ofNat hv]
    rw [if_neg (by omega)]
  · rw [if_neg h, if_neg h]

theorem string_length_data (s : String) : s.length = s.data.length := by
  cases s
  rfl

theorem string_data_ne_nil (s : String) (h : s ≠ "") : s.data ≠ [] := by
  intro hd
  apply h
  cases s with
  | mk l =>
    have hl : l = [] := hd
    rw [hl]

theorem strLower_length (s : String) : (strLower s).length = s.length := by
  cases s with
  | mk l => simp [strLower, string_length_data]

theorem strLower_idem (s : String) : strLower (strLower s) = strLower s := by
  simp [strLower, List.map_map, Function.comp_def, char_toLower_toLower]

theorem strLower_empty : strLower "" = "" := rfl

theorem is_correct_eq_ciMatches (key target : String) (pos : Nat)
    (hkey : key.length = 1) :
    (strLower key == strLower (if pos < target.length then
        strLower (String.singleton (pyIndex target pos)) else "")) =
      ciMatches key target pos := by
  by_cases h : pos < target.length
  · rw [if_pos h]
    have hd : pos < target.data.length := by
      rw [← string_length_data]
      exact h
    have hget : target.data[pos]? = some target.data[pos] :=
      List.getElem?_eq_getElem hd
    have hpy : pyIndex target pos = target.data[pos] := by
      simp [pyIndex, hget]
    unfold ciMatches
    rw [hget, hpy, strLower_idem]
  · rw [if_neg h]
    have hnone : target.data[pos]? = none := by
      rw [List.getElem?_eq_none_iff]
      rw [← string_length_data]
      exact Nat.le_of_not_lt h
    unfold ciMatches
    rw [hnone, strLower_empty]
    rw [beq_eq_false_iff_ne]
    intro he
    have hl := strLower_length key
    rw [he, hkey] at hl
    exact absurd hl (by decide)

/-- C3: for every printable (single-character) key, `process_key` appends the
key verbatim to the buffer, increments the cursor by one, and logs exactly one
event whose correctness flag is the case-insensitive comparison of the key
with the target word's character at the pre-keystroke cursor position
(`ciMatches`), which is always `false` once the cursor is at or past the end
of the target word. -/
theorem process_key_printable_spec (key : String) (rt : Int) (ctx : Context)
    (hkey : key.length = 1) :
    process_key key rt ctx =
      ((ctx.typed_text ++ key, ctx.current_pos + 1, rt),
        [log_keypress key (ciMatches key ctx.target_word ctx.current_pos)
          (rt - ctx.last_keypress_time) ctx.typed_text ctx]) ∧
    (ctx.target_word.length ≤ ctx.current_pos →
      ciMatches key ctx.target_word ctx.current_pos = false) := by
  have hnb : key ≠ "backspace" := by
    intro h
    rw [h] at hkey
    exact absurd hkey (by decide)
  constructor
  · simp only [process_key]
    rw [if_neg (by simp [hnb]), if_pos hkey]
    rw [is_correct_eq_ciMatches key ctx.target_word ctx.current_pos hkey]
  · intro hle
    have hnone : ctx.target_word.data[ctx.current_pos]? = none := by
      rw [List.getElem?_eq_none_iff, ← string_length_data]
      exact hle
    unfold ciMatches
    rw [hnone]

/-- Witness for C3: key `'x'` against target `"glorp"` with the cursor already
at position 5 (= the target's length): the key is appended, the cursor
becomes 6, and the logged correctness flag is `false`. -/
theorem process_key_printable_spec_witness :
    process_key "x" 12 exCtxPastEnd =
      (("glorpx", 6, 12),
        [log_keypress "x" (ciMatches "x" "glorp" 5) 3 "glorp" exCtxPastEnd]) ∧
    ciMatches "x" "glorp" 5 = false := by
  have h := process_key_printable_spec "x" 12 exCtxPastEnd (by decide)
  exact ⟨h.1, h.2 (by decide)⟩

/-- C4: `process_key` accepts a backspace exactly when the buffer is
non-empty and the cursor is positive; an accepted backspace removes the last
buffer character, decrements the cursor, and logs one event with
`correct = true` and `time` equal to the keypress timestamp minus the time of
the previous accepted keystroke; otherwise (in particular on an empty buffer
with cursor 0) the state is returned unchanged and nothing is logged. -/
theorem process_key_backspace_spec (rt : Int) (ctx : Context) :
    process_key "backspace" rt ctx =
      if ctx.typed_text ≠ "" ∧ 0 < ctx.current_pos then
        ((pyDropLast ctx.typed_text, ctx.current_pos - 1, rt),
          [log_keypress "backspace" true (rt - ctx.last_keypress_time)
            ctx.typed_text ctx])
      else ((ctx.typed_text, ctx.current_pos, ctx.last_keypress_time), []) := by
  by_cases h : ctx.typed_text ≠ "" ∧ 0 < ctx.current_pos
  · rw [if_pos h]
    unfold process_key
    rw [if_pos ⟨rfl, h⟩]
  · rw [if_neg h]
    unfold process_key
    rw [if_neg (fun hc => h ⟨hc.2.1, hc.2.2⟩), if_neg (by decide)]

/-- C5: every `process_key` call either ignores the key (state unchanged, no
log entry) or accepts it (exactly one log entry, buffer length changed by
exactly one); keys that are neither `'backspace'` nor a single character are
always ignored; and a `'return'` / `'num_enter'` key is intercepted by the
attempt loop's key walk before reaching `process_key`, producing zero
events. -/
theorem input_step_shape :
    (∀ (key : String) (rt : Int) (ctx : Context),
      ((process_key key rt ctx).2 = [] ∧
        (process_key key rt ctx).1 =
          (ctx.typed_text, ctx.current_pos, ctx.last_keypress_time)) ∨
      ((process_key key rt ctx).2.length = 1 ∧
        ((process_key key rt ctx).1.1.length = ctx.typed_text.length + 1 ∨
          (process_key key rt ctx).1.1.length + 1 = ctx.typed_text.length))) ∧
    (∀ (key : String) (rt : Int) (ctx : Context),
      key ≠ "backspace" → key.length ≠ 1 →
      process_key key rt ctx =
        ((ctx.typed_text, ctx.current_pos, ctx.last_keypress_time), [])) ∧
    (∀ (target : String) (attempt : Nat) (trial : Trial)
        (pinfo : ParticipantInfo) (st : String × Nat × Int) (rt : Int)
        (rest : List (String × Int)),
      process_keys target attempt trial pinfo st (("return", rt) :: rest) =
        (true, st, []) ∧
      process_keys target attempt trial pinfo st (("num_enter", rt) :: rest) =
        (true, st, [])) := by
  refine ⟨?_, ?_, ?_⟩
  · intro key rt ctx
    simp only [process_key]
    by_cases hb : key = "backspace" ∧ ctx.typed_text ≠ "" ∧ 0 < ctx.current_pos
    · rw [if_pos hb]
      refine Or.inr ⟨rfl, Or.inr ?_⟩
      have hpos : 0 < ctx.typed_text.data.length :=
        List.length_pos.2 (string_data_ne_nil _ hb.2.1)
      simp only [pyDropLast, string_length_data, String.length_mk,
        List.length_dropLast]
      omega
    · rw [if_neg hb]
      by_cases hk : key.length = 1
      · rw [if_pos hk]
        refine Or.inr ⟨rfl, Or.inl ?_⟩
        rw [String.length_append, hk]
      · rw [if_neg hk]
        exact Or.inl ⟨rfl, rfl⟩
  · intro key rt ctx hnb hk1
    simp only [process_key]
    rw [if_neg (fun hc => hnb hc.1), if_neg hk1]
  · intro target attempt trial pinfo st rt rest
    constructor
    · simp [process_keys]
    · simp [process_keys]

/-- Witness for C5: the symbolic key `'shift'` (neither backspace nor a
single character) is ignored on a concrete context. -/
theorem input_step_shape_witness :
    process_key "shift" 4 exCtx = (("gl", 2, 3), []) :=
  input_step_shape.2.1 "shift" 4 exCtx (by decide) (by decide)

/-- C9: `process_key` preserves the invariant `current_pos =
typed_text.length`; the per-frame key walk `process_keys` preserves it for
arbitrary key batches; and every attempt starts the input loop on the state
`("", 0, 0)`, which satisfies it — so the invariant holds throughout an
attempt. -/
theorem cursor_tracks_buffer_length :
    (∀ (key : String) (rt : Int) (ctx : Context),
      ctx.current_pos = ctx.typed_text.length →
      (process_key key rt ctx).1.2.1 = (process_key key rt ctx).1.1.length) ∧
    (∀ (target : String) (attempt : Nat) (trial : Trial)
        (pinfo : ParticipantInfo) (st : String × Nat × Int)
        (keys : List (String × Int)),
      st.2.1 = st.1.length →
      (process_keys target attempt trial pinfo st keys).2.1.2.1 =
        (process_keys target attempt trial pinfo st keys).2.1.1.length) ∧
    (∀ (target : String) (attempt : Nat) (trial : Trial)
        (pinfo : ParticipantInfo) (frames : List Frame),
      run_single_input target attempt trial pinfo frames =
        run_single_input_loop target attempt trial pinfo ("", 0, 0) frames) := by
  have hkey : ∀ (key : String) (rt : Int) (ctx : Context),
      ctx.current_pos = ctx.typed_text.length →
      (process_key key rt ctx).1.2.1 = (process_key key rt ctx).1.1.length := by
    intro key rt ctx hinv
    simp only [process_key]
    by_cases hb : key = "backspace" ∧ ctx.typed_text ≠ "" ∧ 0 < ctx.current_pos
    · rw [if_pos hb]
      have hpos : 0 < ctx.typed_text.data.length :=
        List.length_pos.2 (string_data_ne_nil _ hb.2.1)
      rw [string_length_data] at hinv
      simp only [pyDropLast, string_length_data, String.length_mk,
        List.length_dropLast]
      omega
    · rw [if_neg hb]
      by_cases hk : key.length = 1
      · rw [if_pos hk]
        rw [String.length_append, hk, hinv]
      · rw [if_neg hk]
        exact hinv
  refine ⟨hkey, ?_, fun _ _ _ _ _ => rfl⟩
  intro target attempt trial pinfo st keys
  induction keys generalizing st with
  | nil => intro h; exact h
  | cons kv rest ih =>
    intro hinv
    obtain ⟨key, rt⟩ := kv
    unfold process_keys
    by_cases hret : key = "return" ∨ key = "num_enter"
    · rw [if_pos hret]
      exact hinv
    · rw [if_neg hret]
      exact ih _ (hkey key rt _ hinv)

/-- Witness for C9: one concrete step from a state satisfying the invariant
(buffer `"gl"`, cursor 2). -/
theorem cursor_tracks_buffer_length_witness :
    (process_key "o" 5 exCtx).1.2.1 = (process_key "o" 5 exCtx).1.1.length :=
  cursor_tracks_buffer_length.1 "o" 5 exCtx (by decide)

/-- C10: every event `process_key` appends carries in its `input` field the
buffer as it was before the keystroke was applied; for an accepted printable
key the returned (updated) buffer differs from that logged buffer, so the
logged field is the pre-keystroke one, not the updated one. -/
theorem logged_input_is_pre_keystroke_buffer :
    (∀ (key : String) (rt : Int) (ctx : Context),
      ((process_key key rt ctx).2.all
        (fun e => e.input == ctx.typed_text)) = true) ∧
    (∀ (key : String) (rt : Int) (ctx : Context), key.length = 1 →
      (process_key key rt ctx).1.1 ≠ ctx.typed_text) := by
  constructor
  · intro key rt ctx
    simp only [process_key]
    by_cases hb : key = "backspace" ∧ ctx.typed_text ≠ "" ∧ 0 < ctx.current_pos
    · rw [if_pos hb]
      simp [log_keypress]
    · rw [if_neg hb]
      by_cases hk : key.length = 1
      · rw [if_pos hk]
        simp [log_keypress]
      · rw [if_neg hk]
        rfl
  · intro key rt ctx hk heq
    have hnb : key ≠ "backspace" := by
      intro h
      rw [h] at hk
      exact absurd hk (by decide)
    have h := (process_key_printable_spec key rt ctx hk).1
    rw [h] at heq
    have hlen : (ctx.typed_text ++ key).length = ctx.typed_text.length :=
      congrArg String.length heq
    rw [String.length_append, hk] at hlen
    omega

/-- Witness for C10: a concrete printable keystroke whose logged `input` is
the old buffer `"gl"` while the returned buffer is `"glo"`. -/
theorem logged_input_is_pre_keystroke_buffer_witness :
    ((process_key "o" 5 exCtx).2.all
      (fun e => e.input == exCtx.typed_text)) = true ∧
    (process_key "o" 5 exCtx).1.1 ≠ exCtx.typed_text :=
  ⟨logged_input_is_pre_keystroke_buffer.1 "o" 5 exCtx,
   logged_input_is_pre_keystroke_buffer.2 "o" 5 exCtx (by decide)⟩

/-- Counterexample for C2: with a 20-word stimulus set, the requested count
`"0"` is out of range (zero), yet `_load_stimuli` does not fall back to the
full stimulus set and records no warning: `int('0')` succeeds and the slice
`word_list[:0]` leaves zero trials. -/
theorem truncate_word_list_zero_not_full :
    truncate_word_list "0" (List.range 20) = ([], false) ∧
    (truncate_word_list "0" (List.range 20)).1.length ≠ 20 := by
  constructor
  · rfl
  · decide

/-- C2 (amended): only a requested word count on which `int` raises
`ValueError` (non-numeric, e.g. `"abc"`) makes `_load_stimuli` fall back to
the full stimulus set with a warning; a numeric count is applied as the
Python slice `word_list[:n]` with no warning — a count at least the set size
yields the full set, zero yields the empty set, and a negative count drops
that many words from the end. -/
theorem truncate_word_list_spec {α : Type} :
    (∀ (s : String) (l : List α), s ≠ "all" → pyInt s = none →
      truncate_word_list s l = (l, true)) ∧
    (∀ (s : String) (l : List α) (n : Int), s ≠ "all" → pyInt s = some n →
      truncate_word_list s l = (pySliceTo n l, false)) ∧
    (∀ (l : List α) (n : Int), 0 ≤ n → (l.length : Int) ≤ n →
      pySliceTo n l = l) ∧
    (∀ (l : List α), pySliceTo 0 l = []) ∧
    (∀ (l : List α) (n : Int), n < 0 →
      pySliceTo n l = l.take (l.length - (-n).toNat)) := by
  refine ⟨?_, ?_, ?_, ?_, ?_⟩
  · intro s l hs hn
    simp [truncate_word_list, hs, hn]
  · intro s l n hs hn
    simp [truncate_word_list, hs, hn]
  · intro l n h0 hlen
    have hn : l.length ≤ n.toNat := by omega
    simp [pySliceTo, h0, List.take_of_length_le hn]
  · intro l
    simp [pySliceTo]
  · intro l n hneg
    rw [pySliceTo, if_neg (by omega)]

/-- Witness for the amended C2: requested count `"abc"` with a 20-word set
runs all 20 trials and records the warning. -/
theorem truncate_word_list_spec_witness :
    truncate_word_list "abc" (List.range 20) = (List.range 20, true) ∧
    (List.range 20).length = 20 :=
  ⟨truncate_word_list_spec.1 "abc" (List.range 20) (by decide) (by decide),
   by decide⟩

theorem actAttempts_nil : actAttempts [] = [] := rfl

theorem actAttempts_showDef_cons (l : List Act) :
    actAttempts (Act.showDef :: l) = actAttempts l := rfl

theorem actAttempts_append (l₁ l₂ : List Act) :
    actAttempts (l₁ ++ l₂) = actAttempts l₁ ++ actAttempts l₂ :=
  List.filterMap_append _ _ _

theorem actAttempts_map_attempt (l : List Nat) (b : Bool) :
    actAttempts (l.map (fun i => Act.attempt i b)) =
      l.map (fun i => (i, b)) := by
  induction l with
  | nil => rfl
  | cons x xs ih =>
    simp only [List.map_cons, actAttempts, List.filterMap_cons] at *
    rw [ih]

/-- Shape of the attempts loop: with `n` attempts left starting at number
`k`, either all complete (`true`, trace = attempts `k..k+n-1` all completed)
or some attempt `k+j` aborts (`false`, trace stops there). -/
theorem run_attempts_spec (trial : Trial) (pinfo : ParticipantInfo) :
    ∀ (n k : Nat) (frames : List Frame) (b : Bool) (fs : List Frame)
      (evs : List InputEvent) (acts : List Act),
      run_attempts trial pinfo n k frames = some (b, fs, evs, acts) →
      (b = true → acts = (List.range' k n).map (fun i => Act.attempt i true)) ∧
      (b = false → ∃ j, j < n ∧
        acts = ((List.range' k j).map (fun i => Act.attempt i true))
          ++ [Act.attempt (k + j) false]) := by
  intro n
  induction n with
  | zero =>
    intro k frames b fs evs acts h
    simp only [run_attempts, Option.some.injEq, Prod.mk.injEq] at h
    obtain ⟨hb, hfs, hevs, hacts⟩ := h
    refine ⟨fun _ => ?_, fun hb0 => absurd (hb.trans hb0) (by decide)⟩
    rw [← hacts]
    simp [List.range']
  | succ n ih =>
    intro k frames b fs evs acts h
    simp only [run_attempts] at h
    cases hrsi : run_single_input trial.word k trial pinfo frames with
    | none =>
      rw [hrsi] at h
      simp at h
    | some r =>
      obtain ⟨b1, fs1, evs1⟩ := r
      rw [hrsi] at h
      cases b1 with
      | false =>
        simp only [Option.some.injEq, Prod.mk.injEq] at h
        obtain ⟨hb, hfs, hevs, hacts⟩ := h
        refine ⟨fun hb1 => absurd (hb.trans hb1) (by decide),
          fun _ => ⟨0, Nat.succ_pos n, ?_⟩⟩
        rw [← hacts]
        simp [List.range']
      | true =>
        dsimp only at h
        cases hrec : run_attempts trial pinfo n (k + 1) fs1 with
        | none =>
          rw [hrec] at h
          simp at h
        | some r2 =>
          obtain ⟨b2, fs2, evs2, acts2⟩ := r2
          rw [hrec] at h
          simp only [Option.some.injEq, Prod.mk.injEq] at h
          obtain ⟨hb, hfs, hevs, hacts⟩ := h
          have ihs := ih (k + 1) fs1 b2 fs2 evs2 acts2 hrec
          refine ⟨fun hb1 => ?_, fun hb1 => ?_⟩
          · have h1 := ihs.1 (hb.trans hb1)
            rw [← hacts, h1]
            simp [List.range']
          · obtain ⟨j, hj, h2⟩ := ihs.2 (hb.trans hb1)
            refine ⟨j + 1, by omega, ?_⟩
            rw [← hacts, h2]
            simp only [List.range', List.map_cons, List.cons_append]
            have hkj : k + 1 + j = k + (j + 1) := by omega
            rw [hkj]


theorem run_attempts_acts_attempt (trial : Trial) (pinfo : ParticipantInfo)
    (n k : Nat) (frames : List Frame) (b : Bool) (fs : List Frame)
    (evs : List InputEvent) (acts : List Act)
    (h : run_attempts trial pinfo n k frames = some (b, fs, evs, acts)) :
    ∀ a ∈ acts, ∃ i c, a = Act.attempt i c := by
  intro a ha
  have hs := run_attempts_spec trial pinfo n k frames b fs evs acts h
  cases b with
  | true =>
    rw [hs.1 rfl] at ha
    simp only [List.mem_map] at ha
    obtain ⟨i, _, rfl⟩ := ha
    exact ⟨i, true, rfl⟩
  | false =>
    obtain ⟨j, _, h2⟩ := hs.2 rfl
    rw [h2] at ha
    simp only [List.mem_append, List.mem_map, List.mem_singleton] at ha
    rcases ha with ⟨i, _, rfl⟩ | rfl
    · exact ⟨i, true, rfl⟩
    · exact ⟨k + j, false, rfl⟩

/-- C6: `run_trial` shows the definition before the attempts when
`def_position = 'before'` (the trace starts with the display) and after them
when it is `'after'` (the trace ends with it, only when all attempts
completed); the attempts run in order `1..max_attempts` (default 5); an
aborted attempt makes `run_trial` return `false` immediately, with no later
attempt and no post-trial definition display in the trace; and it returns
`true` exactly when all `max_attempts` attempts completed. -/
theorem run_trial_contract (cfg : ExperimentConfig) (trial : Trial)
    (pinfo : ParticipantInfo) (frames fs : List Frame) (b : Bool)
    (evs : List InputEvent) (acts : List Act)
    (h : run_trial cfg trial pinfo frames = some (b, fs, evs, acts)) :
    (trial.def_position = "before" → acts.head? = some Act.showDef) ∧
    (b = true → actAttempts acts =
        (List.range' 1 cfg.max_attempts).map (fun n => (n, true)) ∧
      (trial.def_position = "after" → acts.getLast? = some Act.showDef)) ∧
    (b = false → (∃ k, 1 ≤ k ∧ k ≤ cfg.max_attempts ∧
        actAttempts acts = ((List.range' 1 (k - 1)).map (fun n => (n, true)))
          ++ [(k, false)]) ∧
      (trial.def_position = "after" → Act.showDef ∉ acts)) ∧
    defaultConfig.max_attempts = 5 := by
  simp only [run_trial] at h
  by_cases hdp : trial.def_position = "before"
  · rw [if_pos hdp] at h
    cases hst : show_text true frames with
    | none =>
      rw [hst] at h
      simp at h
    | some p =>
      obtain ⟨r, fs0⟩ := p
      rw [hst] at h
      dsimp only at h
      cases hra : run_attempts trial pinfo cfg.max_attempts 1 fs0 with
      | none =>
        rw [hra] at h
        simp at h
      | some q =>
        obtain ⟨b1, fs1, evs1, acts1⟩ := q
        rw [hra] at h
        have hspec := run_attempts_spec trial pinfo cfg.max_attempts 1 fs0
          b1 fs1 evs1 acts1 hra
        cases b1 with
        | false =>
          simp only [Option.some.injEq, Prod.mk.injEq] at h
          obtain ⟨hb, hfs, hevs, hacts⟩ := h
          refine ⟨fun _ => ?_, fun hb1 => absurd (hb.trans hb1) (by decide),
            fun _ => ⟨?_, fun hdpa => ?_⟩, rfl⟩
          · rw [← hacts]
            rfl
          · obtain ⟨j, hj, h2⟩ := hspec.2 rfl
            refine ⟨j + 1, by omega, by omega, ?_⟩
            rw [← hacts]
            simp only [List.cons_append, List.nil_append,
              actAttempts_showDef_cons, h2, actAttempts_append,
              actAttempts_map_attempt, Nat.add_sub_cancel]
            have hkj : 1 + j = j + 1 := by omega
            rw [← hkj]
            rfl
          · rw [hdp] at hdpa
            exact absurd hdpa (by decide)
        | true =>
          have hna : ¬ trial.def_position = "after" := by
            rw [hdp]
            decide
          dsimp only at h
          rw [if_neg hna] at h
          simp only [Option.some.injEq, Prod.mk.injEq] at h
          obtain ⟨hb, hfs, hevs, hacts⟩ := h
          refine ⟨fun _ => ?_, fun _ => ⟨?_, fun hdpa => absurd hdpa hna⟩,
            fun hb1 => absurd (hb.trans hb1) (by decide), rfl⟩
          · rw [← hacts]
            rfl
          · rw [← hacts, hspec.1 rfl]
            simp only [List.cons_append, List.nil_append,
              actAttempts_showDef_cons, actAttempts_map_attempt]
  · rw [if_neg hdp] at h
    dsimp only at h
    cases hra : run_attempts trial pinfo cfg.max_attempts 1 frames with
    | none =>
      rw [hra] at h
      simp at h
    | some q =>
      obtain ⟨b1, fs1, evs1, acts1⟩ := q
      rw [hra] at h
      have hspec := run_attempts_spec trial pinfo cfg.max_attempts 1 frames
        b1 fs1 evs1 acts1 hra
      have hmem := run_attempts_acts_attempt trial pinfo cfg.max_attempts 1
        frames b1 fs1 evs1 acts1 hra
      cases b1 with
      | false =>
        simp only [Option.some.injEq, Prod.mk.injEq] at h
        obtain ⟨hb, hfs, hevs, hacts⟩ := h
        refine ⟨fun hdpb => absurd hdpb hdp,
          fun hb1 => absurd (hb.trans hb1) (by decide),
          fun _ => ⟨?_, fun _ hmem2 => ?_⟩, rfl⟩
        · obtain ⟨j, hj, h2⟩ := hspec.2 rfl
          refine ⟨j + 1, by omega, by omega, ?_⟩
          rw [← hacts]
          simp only [List.nil_append, h2, actAttempts_append,
            actAttempts_map_attempt, Nat.add_sub_cancel]
          have hkj : 1 + j = j + 1 := by omega
          rw [← hkj]
          rfl
        · rw [← hacts] at hmem2
          simp only [List.nil_append] at hmem2
          obtain ⟨i, c, hic⟩ := hmem _ hmem2
          exact absurd hic (by simp)
      | true =>
        dsimp only at h
        by_cases hda : trial.def_position = "after"
        · rw [if_pos hda] at h
          cases hst2 : show_text true fs1 with
          | none =>
            rw [hst2] at h
            simp at h
          | some p2 =>
            obtain ⟨r2, fs2⟩ := p2
            rw [hst2] at h
            simp only [Option.some.injEq, Prod.mk.injEq] at h
            obtain ⟨hb, hfs, hevs, hacts⟩ := h
            refine ⟨fun hdpb => absurd hdpb hdp, fun _ => ⟨?_, fun _ => ?_⟩,
              fun hb1 => absurd (hb.trans hb1) (by decide), rfl⟩
            · rw [← hacts, hspec.1 rfl]
              simp only [List.nil_append, actAttempts_append,
                actAttempts_map_attempt, actAttempts_showDef_cons,
                actAttempts_nil, List.append_nil]
            · rw [← hacts]
              simp only [List.nil_append]
              exact List.getLast?_concat _
        · rw [if_neg hda] at h
          simp only [Option.some.injEq, Prod.mk.injEq] at h
          obtain ⟨hb, hfs, hevs, hacts⟩ := h
          refine ⟨fun hdpb => absurd hdpb hdp,
            fun _ => ⟨?_, fun hdpa => absurd hdpa hda⟩,
            fun hb1 => absurd (hb.trans hb1) (by decide), rfl⟩
          rw [← hacts, hspec.1 rfl]
          simp only [List.nil_append, actAttempts_map_attempt]

/-- Witness for C6: a concrete full trial with `def_position = 'after'`:
all five attempts completed in order and the trace ends with the
definition display. -/
theorem run_trial_contract_witness :
    actAttempts exActs =
      (List.range' 1 defaultConfig.max_attempts).map (fun n => (n, true)) ∧
    exActs.getLast? = some Act.showDef := by
  have h := run_trial_contract defaultConfig exTrialAfter exPinfo
    exTrialFrames [] true [] exActs (by rfl)
  exact ⟨(h.2.1 rfl).1, (h.2.1 rfl).2 rfl⟩

/-- Counterexample for C1: escape is observed while the definition is being
displayed (the definition's `show_text` call returns `false` on these
frames), yet the trial does not abort: all five attempts still run,
`run_trial` returns `true`, and the trial loop reports no abort to the
session. -/
theorem escape_during_definition_not_propagated :
    show_text true cExFrames =
      some (false, List.replicate 5 { keys := [("return", 0)] }) ∧
    run_trial defaultConfig exTrial exPinfo cExFrames =
      some (true, [], [], cExActs) ∧
    run_trials defaultConfig exPinfo [exTrial] cExFrames =
      some (true, [], [], cExActs) :=
  ⟨rfl, rfl, rfl⟩

/-- C1 (amended): escape observed during a typing attempt or an instruction
screen unwinds immediately — the attempt returns `false` with no further
processing of that frame, an aborted attempt ends the attempts loop at once,
an aborted trial ends the trial loop at once, and the session flushes the
event log with the aborted marker as its last action before the
unconditional teardown.  (Escape during the definition display is the
exception: `run_trial` discards `show_text`'s result there, see the
counterexample.) -/
theorem escape_abort_unwinds :
    (∀ (target : String) (attempt : Nat) (trial : Trial)
        (pinfo : ParticipantInfo) (st : String × Nat × Int) (f : Frame)
        (fs : List Frame), f.escape = true →
      run_single_input_loop target attempt trial pinfo st (f :: fs) =
        some (false, fs, [])) ∧
    (∀ (trial : Trial) (pinfo : ParticipantInfo) (n k : Nat) (f : Frame)
        (fs : List Frame), f.escape = true →
      run_attempts trial pinfo (n + 1) k (f :: fs) =
        some (false, fs, [], [Act.attempt k false])) ∧
    (∀ (cfg : ExperimentConfig) (pinfo : ParticipantInfo) (t : Trial)
        (rest : List Trial) (frames fs : List Frame) (evs : List InputEvent)
        (acts : List Act),
      run_trial cfg t pinfo frames = some (false, fs, evs, acts) →
      run_trials cfg pinfo (t :: rest) frames = some (false, fs, evs, acts)) ∧
    (∀ (cfg : ExperimentConfig) (instrs : List String) (trials : List Trial)
        (pinfo : ParticipantInfo) (frames fs : List Frame) (acts1 : List Act),
      show_instructions instrs frames = some (false, fs, acts1) →
      run_body cfg instrs trials pinfo frames =
        some ([], acts1 ++ [Act.save true])) ∧
    (∀ (cfg : ExperimentConfig) (instrs : List String) (trials : List Trial)
        (pinfo : ParticipantInfo) (frames fs fs' : List Frame)
        (acts1 acts2 : List Act) (evs : List InputEvent),
      show_instructions instrs frames = some (true, fs, acts1) →
      run_trials cfg pinfo trials fs = some (false, fs', evs, acts2) →
      run_body cfg instrs trials pinfo frames =
        some (evs, acts1 ++ acts2 ++ [Act.save true])) ∧
    (∀ (evs : List InputEvent) (acts : List Act),
      run (BodyOutcome.normal evs acts) = acts ++ [Act.closeWin, Act.quit]) := by
  refine ⟨?_, ?_, ?_, ?_, ?_, fun _ _ => rfl⟩
  · intro target attempt trial pinfo st f fs hesc
    simp [run_single_input_loop, hesc]
  · intro trial pinfo n k f fs hesc
    have h1 : run_single_input trial.word k trial pinfo (f :: fs) =
        some (false, fs, []) := by
      simp [run_single_input, run_single_input_loop, hesc]
    simp only [run_attempts]
    rw [h1]
  · intro cfg pinfo t rest frames fs evs acts h
    simp only [run_trials]
    rw [h]
  · intro cfg instrs trials pinfo frames fs acts1 h
    simp only [run_body]
    rw [h]
  · intro cfg instrs trials pinfo frames fs fs' acts1 acts2 evs h1 h2
    simp only [run_body]
    rw [h1]
    dsimp only
    rw [h2]

/-- Witness for the amended C1: a concrete session of one instruction screen
on which escape is pressed: the session aborts and its last action before
teardown is the flush with the aborted marker. -/
theorem escape_abort_unwinds_witness :
    run_body defaultConfig ["w"] [exTrial] exPinfo [{ escape := true }] =
      some ([], [Act.showInstr, Act.save true]) :=
  escape_abort_unwinds.2.2.2.1 defaultConfig ["w"] [exTrial] exPinfo
    [{ escape := true }] [] [Act.showInstr] rfl

theorem show_instructions_acts_shape :
    ∀ (instrs : List String) (frames : List Frame) (b : Bool)
      (fs : List Frame) (acts : List Act),
      show_instructions instrs frames = some (b, fs, acts) →
      ∀ a ∈ acts, a = Act.showInstr := by
  intro instrs
  induction instrs with
  | nil =>
    intro frames b fs acts h
    simp only [show_instructions, Option.some.injEq, Prod.mk.injEq] at h
    obtain ⟨_, _, hacts⟩ := h
    rw [← hacts]
    intro a ha
    exact absurd ha (List.not_mem_nil a)
  | cons i rest ih =>
    intro frames b fs acts h
    simp only [show_instructions] at h
    cases hst : show_text false frames with
    | none =>
      rw [hst] at h
      simp at h
    | some p =>
      obtain ⟨b0, fs0⟩ := p
      rw [hst] at h
      cases b0 with
      | false =>
        simp only [Option.some.injEq, Prod.mk.injEq] at h
        obtain ⟨_, _, hacts⟩ := h
        rw [← hacts]
        intro a ha
        simpa using ha
      | true =>
        dsimp only at h
        cases hrec : show_instructions rest fs0 with
        | none =>
          rw [hrec] at h
          simp at h
        | some p2 =>
          obtain ⟨b2, fs2, acts2⟩ := p2
          rw [hrec] at h
          simp only [Option.some.injEq, Prod.mk.injEq] at h
          obtain ⟨_, _, hacts⟩ := h
          rw [← hacts]
          intro a ha
          rcases List.mem_cons.1 ha with rfl | ha2
          · rfl
          · exact ih fs0 b2 fs2 acts2 hrec a ha2

theorem run_trial_acts_shape (cfg : ExperimentConfig) (trial : Trial)
    (pinfo : ParticipantInfo) (frames fs : List Frame) (b : Bool)
    (evs : List InputEvent) (acts : List Act)
    (h : run_trial cfg trial pinfo frames = some (b, fs, evs, acts)) :
    ∀ a ∈ acts, a = Act.showDef ∨ ∃ i c, a = Act.attempt i c := by
  simp only [run_trial] at h
  by_cases hdp : trial.def_position = "before"
  · rw [if_pos hdp] at h
    cases hst : show_text true frames with
    | none =>
      rw [hst] at h
      simp at h
    | some p =>
      obtain ⟨r, fs0⟩ := p
      rw [hst] at h
      dsimp only at h
      cases hra : run_attempts trial pinfo cfg.max_attempts 1 fs0 with
      | none =>
        rw [hra] at h
        simp at h
      | some q =>
        obtain ⟨b1, fs1, evs1, acts1⟩ := q
        rw [hra] at h
        have hmem := run_attempts_acts_attempt trial pinfo cfg.max_attempts 1
          fs0 b1 fs1 evs1 acts1 hra
        cases b1 with
        | false =>
          simp only [Option.some.injEq, Prod.mk.injEq] at h
          obtain ⟨_, _, _, hacts⟩ := h
          rw [← hacts]
          intro a ha
          rcases List.mem_cons.1 ha with rfl | ha2
          · exact Or.inl rfl
          · exact Or.inr (hmem a ha2)
        | true =>
          have hna : ¬ trial.def_position = "after" := by
            rw [hdp]
            decide
          dsimp only at h
          rw [if_neg hna] at h
          simp only [Option.some.injEq, Prod.mk.injEq] at h
          obtain ⟨_, _, _, hacts⟩ := h
          rw [← hacts]
          intro a ha
          rcases List.mem_cons.1 ha with rfl | ha2
          · exact Or.inl rfl
          · exact Or.inr (hmem a ha2)
  · rw [if_neg hdp] at h
    dsimp only at h
    cases hra : run_attempts trial pinfo cfg.max_attempts 1 frames with
    | none =>
      rw [hra] at h
      simp at h
    | some q =>
      obtain ⟨b1, fs1, evs1, acts1⟩ := q
      rw [hra] at h
      have hmem := run_attempts_acts_attempt trial pinfo cfg.max_attempts 1
        frames b1 fs1 evs1 acts1 hra
      cases b1 with
      | false =>
        simp only [Option.some.injEq, Prod.mk.injEq] at h
        obtain ⟨_, _, _, hacts⟩ := h
        rw [← hacts]
        intro a ha
        simp only [List.nil_append] at ha
        exact Or.inr (hmem a ha)
      | true =>
        dsimp only at h
        by_cases hda : trial.def_position = "after"
        · rw [if_pos hda] at h
          cases hst2 : show_text true fs1 with
          | none =>
            rw [hst2] at h
            simp at h
          | some p2 =>
            obtain ⟨r2, fs2⟩ := p2
            rw [hst2] at h
            simp only [Option.some.injEq, Prod.mk.injEq] at h
            obtain ⟨_, _, _, hacts⟩ := h
            rw [← hacts]
            intro a ha
            simp only [List.nil_append, List.mem_append,
              List.mem_singleton] at ha
            rcases ha with ha2 | rfl
            · exact Or.inr (hmem a ha2)
            · exact Or.inl rfl
        · rw [if_neg hda] at h
          simp only [Option.some.injEq, Prod.mk.injEq] at h
          obtain ⟨_, _, _, hacts⟩ := h
          rw [← hacts]
          intro a ha
          simp only [List.nil_append] at ha
          exact Or.inr (hmem a ha)

theorem run_trials_acts_shape (cfg : ExperimentConfig)
    (pinfo : ParticipantInfo) :
    ∀ (trials : List Trial) (frames fs : List Frame) (b : Bool)
      (evs : List InputEvent) (acts : List Act),
      run_trials cfg pinfo trials frames = some (b, fs, evs, acts) →
      ∀ a ∈ acts, a = Act.showDef ∨ ∃ i c, a = Act.attempt i c := by
  intro trials
  induction trials with
  | nil =>
    intro frames fs b evs acts h
    simp only [run_trials, Option.some.injEq, Prod.mk.injEq] at h
    obtain ⟨_, _, _, hacts⟩ := h
    rw [← hacts]
    intro a ha
    exact absurd ha (List.not_mem_nil a)
  | cons t rest ih =>
    intro frames fs b evs acts h
    simp only [run_trials] at h
    cases hrt : run_trial cfg t pinfo frames with
    | none =>
      rw [hrt] at h
      simp at h
    | some q =>
      obtain ⟨b1, fs1, evs1, acts1⟩ := q
      rw [hrt] at h
      have hmem1 := run_trial_acts_shape cfg t pinfo frames fs1 b1 evs1
        acts1 hrt
      cases b1 with
      | false =>
        simp only [Option.some.injEq, Prod.mk.injEq] at h
        obtain ⟨_, _, _, hacts⟩ := h
        rw [← hacts]
        exact hmem1
      | true =>
        dsimp only at h
        cases hrec : run_trials cfg pinfo rest fs1 with
        | none =>
          rw [hrec] at h
          simp at h
        | some q2 =>
          obtain ⟨b2, fs2, evs2, acts2⟩ := q2
          rw [hrec] at h
          simp only [Option.some.injEq, Prod.mk.injEq] at h
          obtain ⟨_, _, _, hacts⟩ := h
          rw [← hacts]
          intro a ha
          rcases List.mem_append.1 ha with ha1 | ha2
          · exact hmem1 a ha1
          · exact ih fs1 fs2 b2 evs2 acts2 hrec a ha2

theorem acts_no_save_no_thank (l : List Act)
    (hshape : ∀ a ∈ l, a = Act.showInstr ∨ a = Act.showDef ∨
      ∃ i c, a = Act.attempt i c) :
    l.filter actIsSave = [] ∧ Act.showThankYou ∉ l := by
  constructor
  · rw [List.filter_eq_nil_iff]
    intro a ha
    rcases hshape a ha with rfl | rfl | ⟨i, c, rfl⟩ <;> simp [actIsSave]
  · intro hmem
    rcases hshape _ hmem with h | h | ⟨i, c, h⟩ <;> simp at h

/-- C7: every terminating run of `NeologismenCore.run`'s body performs
exactly one `save_data` call; its marker is `aborted` precisely when the
session ended via an abort during instructions or trials (equivalently: the
marker is `final` iff the thank-you screen is reached, i.e. iff all trials
completed naturally); and the file it writes is named
`{sessionDate}_participant_{participantName}_{statusMarker}_{HHMM}.csv`. -/
theorem save_exactly_once (cfg : ExperimentConfig) (instrs : List String)
    (trials : List Trial) (pinfo : ParticipantInfo) (frames : List Frame)
    (evs : List InputEvent) (acts : List Act)
    (h : run_body cfg instrs trials pinfo frames = some (evs, acts)) :
    (acts.filter actIsSave = [Act.save true] ∨
      acts.filter actIsSave = [Act.save false]) ∧
    (acts.filter actIsSave = [Act.save false] ↔ Act.showThankYou ∈ acts) ∧
    (∀ (date name ts : String) (ab : Bool),
      save_filename date name ab ts =
        date ++ "_participant_" ++ name ++ "_"
          ++ (if ab then "aborted" else "final") ++ "_" ++ ts ++ ".csv") := by
  simp only [run_body] at h
  cases hsi : show_instructions instrs frames with
  | none =>
    rw [hsi] at h
    simp at h
  | some p =>
    obtain ⟨b1, fs1, acts1⟩ := p
    rw [hsi] at h
    have hsh1 := show_instructions_acts_shape instrs frames b1 fs1 acts1 hsi
    have hns1 := acts_no_save_no_thank acts1
      (fun a ha => Or.inl (hsh1 a ha))
    cases b1 with
    | false =>
      simp only [Option.some.injEq, Prod.mk.injEq] at h
      obtain ⟨hevs, hacts⟩ := h
      rw [← hacts]
      refine ⟨Or.inl ?_, ?_, fun _ _ _ _ => rfl⟩
      · rw [List.filter_append, hns1.1]
        rfl
      · rw [List.filter_append, hns1.1]
        refine iff_of_false (by decide) ?_
        intro hmem
        simp at hmem
        exact hns1.2 hmem
    | true =>
      dsimp only at h
      cases hrt : run_trials cfg pinfo trials fs1 with
      | none =>
        rw [hrt] at h
        simp at h
      | some q =>
        obtain ⟨b2, fs2, evs2, acts2⟩ := q
        rw [hrt] at h
        have hsh2 := run_trials_acts_shape cfg pinfo trials fs1 fs2 b2 evs2
          acts2 hrt
        have hns2 := acts_no_save_no_thank acts2
          (fun a ha => Or.inr (hsh2 a ha))
        cases b2 with
        | false =>
          simp only [Option.some.injEq, Prod.mk.injEq] at h
          obtain ⟨hevs, hacts⟩ := h
          rw [← hacts]
          refine ⟨Or.inl ?_, ?_, fun _ _ _ _ => rfl⟩
          · rw [List.filter_append, List.filter_append, hns1.1, hns2.1]
            rfl
          · rw [List.filter_append, List.filter_append, hns1.1, hns2.1]
            refine iff_of_false (by decide) ?_
            intro hmem
            simp at hmem
            rcases hmem with hmem1 | hmem2
            · exact hns1.2 hmem1
            · exact hns2.2 hmem2
        | true =>
          dsimp only at h
          cases hth : show_text false fs2 with
          | none =>
            rw [hth] at h
            simp at h
          | some p3 =>
            rw [hth] at h
            simp only [Option.some.injEq, Prod.mk.injEq] at h
            obtain ⟨hevs, hacts⟩ := h
            rw [← hacts]
            refine ⟨Or.inr ?_, ?_, fun _ _ _ _ => rfl⟩
            · rw [List.filter_append, List.filter_append, hns1.1, hns2.1]
              rfl
            · rw [List.filter_append, List.filter_append, hns1.1, hns2.1]
              refine iff_of_true (by rfl) (by simp)

/-- Witness for C7: the empty session (no instructions, no trials) on one
space frame completes naturally: exactly one save, with the `final` marker,
and the thank-you screen follows it; plus one concrete filename. -/
theorem save_exactly_once_witness :
    ([Act.save false, Act.showThankYou].filter actIsSave = [Act.save true] ∨
      [Act.save false, Act.showThankYou].filter actIsSave =
        [Act.save false]) ∧
    save_filename "2025-01-01" "p01" true "1200" =
      "2025-01-01_participant_p01_aborted_1200.csv" := by
  have h := save_exactly_once defaultConfig [] [] exPinfo [{ space := true }]
    [] [Act.save false, Act.showThankYou] rfl
  exact ⟨h.1, (h.2.2 "2025-01-01" "p01" "1200" true).trans (by rfl)⟩

/-- C8: an exception raised anywhere in the `try` body of
`NeologismenCore.run` is caught exactly once at the top level: the handler
appends, after the partial trace, exactly the operator-facing error log and
the aborted-marker save — no participant-facing display — and the `finally`
teardown (window close, quit) runs on every path, exception or not. -/
theorem unhandled_exception_handling :
    (∀ (evs : List InputEvent) (acts : List Act),
      run (BodyOutcome.raised evs acts) =
        acts ++ [Act.logError, Act.save true, Act.closeWin, Act.quit]) ∧
    (∀ b : BodyOutcome, Act.closeWin ∈ run b) := by
  refine ⟨fun _ _ => rfl, ?_⟩
  intro b
  cases b <;> simp [run]

end Neolog
